import Mathlib

/-!
Verification of the dhan-trader core: a shallow embedding in Lean 4 of the
strategy scoring engine (`src/services/strategy.py`), the technical-indicator
engine (`src/services/indicators.py`), the fallback cache store
(`src/utils/cache.py`), and the signal deduplicator
(`src/services/signal_deduplicator.py`), together with theorems settling the
specification's testable properties.

Conventions of the embedding:
- Python floats are modelled as rationals (`ℚ`); all arithmetic in the
  embedded code is exact field arithmetic, matching the source formulas.
- Python `None` entries of indicator series are `Option.none`.
- Python dicts are modelled as association lists with dict update semantics
  (update-in-place when the key is present, append otherwise).
- `period <= 0` raises `ValueError` in the source; theorems therefore carry
  the precondition `0 < period` instead of modelling the exception.
-/

namespace DhanTrader

/-! ## Feature sets and the strategy engine (src/services/strategy.py) -/

/-- A feature set: Python's `Dict[str, Any]` restricted to boolean values,
modelled as an association list.  Lookup takes the first binding, matching a
dict in which each key occurs once. -/
def Features : Type := List (String × Bool)

/-- `bool(features.get(k))`: value of the flag `k`, with a missing key read
as `False`. -/
def fget (f : Features) (k : String) : Bool :=
  match List.lookup k f with
  | some b => b
  | none => false

/-- Python `features[k] = True`: the binding that shadows any previous one. -/
def setFlag (f : Features) (k : String) : Features :=
  (k, true) :: f

/-- `StrategyEngine.compute_score`: sum of fixed weights over the truthy
flags, one `if` per weighted key exactly as in the source. -/
def computeScore (f : Features) : ℤ :=
  (if fget f "obv_bullish" then 3 else 0)
  + (if fget f "rsi_bullish" then 2 else 0)
  + (if fget f "mfi_bullish" then 2 else 0)
  + (if fget f "market_structure" then 1 else 0)
  + (if fget f "candlestick_bullish" then 1 else 0)
  + (if fget f "not_falling" then 2 else 0)
  + (if fget f "htf_uptrend" then 1 else 0)

/-- The seven weighted keys with their weights, as enumerated by the spec
(§4.3); `ema_trend` carries no weight. -/
def scoreWeights : List (String × ℤ) :=
  [("obv_bullish", 3), ("rsi_bullish", 2), ("mfi_bullish", 2),
   ("market_structure", 1), ("candlestick_bullish", 1),
   ("not_falling", 2), ("htf_uptrend", 1)]

/-- The score as the spec words it: the sum of the fixed weights over the
keys that are present and true. -/
def computeScoreSpec (f : Features) : ℤ :=
  (scoreWeights.map (fun kw => if fget f kw.1 then kw.2 else 0)).sum

/-- The eight named feature keys (spec §4.2). -/
def featureNames : List String :=
  ["obv_bullish", "rsi_bullish", "mfi_bullish", "market_structure",
   "candlestick_bullish", "not_falling", "htf_uptrend", "ema_trend"]

/-- `StrategyEngine.detect_long_signal`: score at least 6, and both the
`not_falling` and `ema_trend` flags set.  The source's `try/except` guard is
dead code around pure arithmetic and is not modelled. -/
def detectLongSignal (f : Features) : Bool :=
  decide (6 ≤ computeScore f) && fget f "not_falling" && fget f "ema_trend"

/-! ## Technical indicators (src/services/indicators.py)

Each function mirrors the corresponding `IndicatorCalculator` static method,
with Python floats as `ℚ` and `None` as `Option.none`. -/

/-- The smoothing recursion of `IndicatorCalculator.ema`:
`ema = price * k + prev * (1 - k)` for each remaining price. -/
def emaFrom (k : ℚ) : ℚ → List ℚ → List ℚ
  | _, [] => []
  | prev, p :: rest =>
    let e := p * k + prev * (1 - k)
    e :: emaFrom k e rest

/-- `IndicatorCalculator.ema`: `None` before index `period - 1`, the simple
average of the first `period` prices at index `period - 1`, then the
smoothing recursion with `k = 2 / (period + 1)`. -/
def ema (prices : List ℚ) (period : ℕ) : List (Option ℚ) :=
  if prices.length < period then List.replicate prices.length none
  else
    let k : ℚ := 2 / ((period : ℚ) + 1)
    let seed := (prices.take period).sum / (period : ℚ)
    List.replicate (period - 1) none
      ++ some seed :: (emaFrom k seed (prices.drop period)).map some

/-- `IndicatorCalculator.sma`: mean of the trailing window
`prices[i - period + 1 : i + 1]`, `None` before index `period - 1`. -/
def sma (prices : List ℚ) (period : ℕ) : List (Option ℚ) :=
  (List.range prices.length).map fun i =>
    if i < period - 1 then none
    else some (((prices.drop (i + 1 - period)).take period).sum / (period : ℚ))

/-- The RSI formula applied to one average-gain/average-loss pair:
`100` when the average loss is zero, else `100 - 100 / (1 + rs)`. -/
def rsiVal (avgGain avgLoss : ℚ) : ℚ :=
  if avgLoss = 0 then 100 else 100 - 100 / (1 + avgGain / avgLoss)

/-- The Wilder-smoothing loop of `IndicatorCalculator.rsi` over the deltas
after the seed window. -/
def rsiRec (period : ℚ) : ℚ → ℚ → List ℚ → List ℚ
  | _, _, [] => []
  | avgGain, avgLoss, d :: rest =>
    let gain := max d 0
    let loss := -(min d 0)
    let g := (avgGain * (period - 1) + gain) / period
    let l := (avgLoss * (period - 1) + loss) / period
    rsiVal g l :: rsiRec period g l rest

/-- `[prices[i] - prices[i-1] for i in range(1, n)]`. -/
def deltas (prices : List ℚ) : List ℚ :=
  (prices.tail.zip prices).map fun pq => pq.1 - pq.2

/-- `IndicatorCalculator.rsi`: all `None` when fewer than `period + 1`
prices; otherwise `period` leading `None`s followed by the seeded value and
the Wilder-smoothed values. -/
def rsi (prices : List ℚ) (period : ℕ) : List (Option ℚ) :=
  let n := prices.length
  if n < period + 1 then List.replicate n none
  else
    let ds := deltas prices
    let seed := ds.take period
    let avgGain := (seed.filter (fun x => decide (0 < x))).sum / (period : ℚ)
    let avgLoss := -(seed.filter (fun x => decide (x < 0))).sum / (period : ℚ)
    List.replicate period none
      ++ (rsiVal avgGain avgLoss
          :: rsiRec (period : ℚ) avgGain avgLoss (ds.drop period)).map some

/-- Python list indexing `l[i]`: a negative index counts from the end
(the source reaches `typical_prices[j - 1]` with `j = 0`, which Python reads
as the final element of the list). Out-of-range reads, which would raise in
Python and never occur in the modelled code paths, default to `0`. -/
def pyGet (l : List ℚ) (i : ℤ) : ℚ :=
  if i < 0 then l.getD (l.length - (-i).toNat) 0 else l.getD i.toNat 0

/-- Pointwise ternary zip, truncating like Python's `zip`. -/
def zip3With (f : ℚ → ℚ → ℚ → ℚ) : List ℚ → List ℚ → List ℚ → List ℚ
  | a :: as, b :: bs, c :: cs => f a b c :: zip3With f as bs cs
  | _, _, _ => []

/-- `[(h + l + c) / 3 for h, l, c in zip(highs, lows, closes)]`. -/
def typicalPrices (highs lows closes : List ℚ) : List ℚ :=
  zip3With (fun h l c => (h + l + c) / 3) highs lows closes

/-- `IndicatorCalculator.mfi`: for each `i` in `[period, n)`, sum the money
flows over window positions `j = i - period .. i - 1` according to whether
the typical price rose or fell relative to `typical_prices[j - 1]`
(Python indexing, so `j = 0` compares against the last element). -/
def mfi (highs lows closes volumes : List ℚ) (period : ℕ) : List (Option ℚ) :=
  let n := closes.length
  if n < period + 1 then List.replicate n none
  else
    let typical := typicalPrices highs lows closes
    let flows := (typical.zip volumes).map fun tv => tv.1 * tv.2
    List.replicate period none ++ ((List.range (n - period)).map fun m =>
      let positive := ((List.range period).map fun t =>
        if pyGet typical (((m + t : ℕ) : ℤ) - 1) < pyGet typical ((m + t : ℕ) : ℤ)
        then flows.getD (m + t) 0 else 0).sum
      let negative := ((List.range period).map fun t =>
        if pyGet typical ((m + t : ℕ) : ℤ) < pyGet typical (((m + t : ℕ) : ℤ) - 1)
        then flows.getD (m + t) 0 else 0).sum
      if negative = 0 then some 100
      else some (100 - 100 / (1 + positive / negative)))

/-- The running-sum loop of `IndicatorCalculator.obv` over
`(close, volume)` pairs, carrying the current OBV and previous close. -/
def obvRec : ℚ → ℚ → List (ℚ × ℚ) → List ℚ
  | _, _, [] => []
  | cur, prev, (c, v) :: rest =>
    let cur2 := if prev < c then cur + v else if c < prev then cur - v else cur
    cur2 :: obvRec cur2 c rest

/-- `IndicatorCalculator.obv`: first value `0`, then `±volume[i]` on a
higher/lower close, unchanged on an equal close. -/
def obv (closes volumes : List ℚ) : List (Option ℚ) :=
  match closes with
  | [] => []
  | c0 :: rest => some 0 :: (obvRec 0 c0 (rest.zip volumes.tail)).map some

/-- Truncating 4-ary zip, as Python's `zip` over the four parallel series. -/
def zip4 : List ℚ → List ℚ → List ℚ → List ℚ → List (ℚ × ℚ × ℚ × ℚ)
  | a :: as, b :: bs, c :: cs, d :: ds => (a, b, c, d) :: zip4 as bs cs ds
  | _, _, _, _ => []

/-- The cumulative loop of `IndicatorCalculator.vwap`, carrying the running
typical-price·volume sum and the running volume sum. -/
def vwapRec : ℚ → ℚ → List (ℚ × ℚ × ℚ × ℚ) → List (Option ℚ)
  | _, _, [] => []
  | ctp, cv, (h, l, c, v) :: rest =>
    let tp := (h + l + c) / 3
    let ctp2 := ctp + tp * v
    let cv2 := cv + v
    (if cv2 = 0 then none else some (ctp2 / cv2)) :: vwapRec ctp2 cv2 rest

/-- `IndicatorCalculator.vwap`. -/
def vwap (highs lows closes volumes : List ℚ) : List (Option ℚ) :=
  vwapRec 0 0 (zip4 highs lows closes volumes)

/-- The cumulative loop of `IndicatorCalculator.ad_line`, carrying the
running accumulation/distribution total. -/
def adRec : ℚ → List (ℚ × ℚ × ℚ × ℚ) → List (Option ℚ)
  | _, [] => []
  | cum, (h, l, c, v) :: rest =>
    let clv := if h = l then 0 else ((c - l) - (h - c)) / (h - l)
    let cum2 := cum + clv * v
    some cum2 :: adRec cum2 rest

/-- `IndicatorCalculator.ad_line`. -/
def ad_line (highs lows closes volumes : List ℚ) : List (Option ℚ) :=
  adRec 0 (zip4 highs lows closes volumes)

/-- The true-range series of `IndicatorCalculator.atr`:
`tr[0] = high[0] - low[0]`, and for `i ≥ 1` the max of the bar range and the
two gaps against the previous close. -/
def trueRanges (highs lows closes : List ℚ) : List ℚ :=
  (List.range closes.length).map fun i =>
    if i = 0 then highs.getD 0 0 - lows.getD 0 0
    else
      max (highs.getD i 0 - lows.getD i 0)
        (max |highs.getD i 0 - closes.getD (i - 1) 0|
          |lows.getD i 0 - closes.getD (i - 1) 0|)

/-- Wilder smoothing `atr = (atr * (period - 1) + tr[i]) / period` over the
true ranges after the seed window. -/
def wilderRec (period : ℚ) : ℚ → List ℚ → List ℚ
  | _, [] => []
  | prev, t :: rest =>
    let a := (prev * (period - 1) + t) / period
    a :: wilderRec period a rest

/-- `IndicatorCalculator.atr`: all `None` when fewer than 2 bars or fewer
than `period` true ranges; otherwise the seed mean at index `period - 1`
followed by Wilder smoothing. -/
def atr (highs lows closes : List ℚ) (period : ℕ) : List (Option ℚ) :=
  let n := closes.length
  if n < 2 then List.replicate n none
  else
    let trs := trueRanges highs lows closes
    if trs.length < period then List.replicate n none
    else
      let seed := (trs.take period).sum / (period : ℚ)
      List.replicate (period - 1) none
        ++ some seed :: (wilderRec (period : ℚ) seed (trs.drop period)).map some

/-- Pointwise subtraction of optional series: `None` wherever either
operand is `None`. -/
def optSub (a b : Option ℚ) : Option ℚ :=
  match a, b with
  | some x, some y => some (x - y)
  | _, _ => none

/-- Scatter the signal-line EMA values back over the defined positions of
the MACD line, in order (`signal_line[idx] = signal_ema[i]` in the source).
The EMA list always has exactly as many entries as the MACD line has defined
positions, so the third case is unreachable. -/
def scatterSignal : List (Option ℚ) → List (Option ℚ) → List (Option ℚ)
  | [], _ => []
  | none :: rest, es => none :: scatterSignal rest es
  | some _ :: rest, [] => none :: scatterSignal rest []
  | some _ :: rest, e :: es => e :: scatterSignal rest es

/-- The three series returned by `IndicatorCalculator.macd`. -/
structure MacdResult where
  macdLine : List (Option ℚ)
  signalLine : List (Option ℚ)
  histogram : List (Option ℚ)

/-- `IndicatorCalculator.macd`: MACD line as the pointwise difference of the
fast and slow EMAs, signal line as the EMA of the defined subsequence of the
MACD line scattered back over the defined positions, histogram as the
pointwise difference. -/
def macd (prices : List ℚ) (fast slow signal : ℕ) : MacdResult :=
  let emaFast := ema prices fast
  let emaSlow := ema prices slow
  let macdLine := List.zipWith optSub emaFast emaSlow
  let signalLine := scatterSignal macdLine (ema (macdLine.filterMap id) signal)
  let histogram := List.zipWith optSub macdLine signalLine
  ⟨macdLine, signalLine, histogram⟩

/-- The three series returned by `IndicatorCalculator.bollinger_bands`. -/
structure BollingerResult where
  upper : List (Option ℚ)
  middle : List (Option ℚ)
  lower : List (Option ℚ)

/-- `IndicatorCalculator.bollinger_bands`, parameterised by the square-root
function (`** 0.5` in the source — the only non-rational operation, so it is
taken as an argument).  In the defined branch `middle_band[i]` is never
`None` and equals the window mean, which the source uses as its fallback
`mid`; the embedding uses that single value for both the deviation and the
band centres, as the source does on every reachable path. -/
def bollinger_bands (sqrtFn : ℚ → ℚ) (prices : List ℚ) (period : ℕ)
    (stdDev : ℚ) : BollingerResult :=
  let middleBand := sma prices period
  let bands := (List.range prices.length).map fun i =>
    if i < period - 1 then ((none : Option ℚ), (none : Option ℚ))
    else
      let window := (prices.drop (i + 1 - period)).take period
      let mid := (middleBand.getD i none).getD (window.sum / (period : ℚ))
      let std := sqrtFn ((window.map fun x => (x - mid) ^ 2).sum / (period : ℚ))
      (some (mid + stdDev * std), some (mid - stdDev * std))
  ⟨bands.map Prod.fst, middleBand, bands.map Prod.snd⟩

/-! ## The fallback cache store (src/utils/cache.py)

`CacheManager` is modelled in its fallback mode: `redis_client is None` and
`enable_fallback=True`, so every operation acts on the in-memory dict
`fallback_cache`.  The remote Redis backend is an external service and is
not part of this repository's sources.  The dict is an association list with
dict update semantics; values are a type parameter, since the fallback
branches store and return the Python object unchanged. -/

/-- The `fallback_cache` dict: namespaced key to stored value. -/
abbrev CacheState (α : Type) : Type := List (String × α)

/-- Dict read: the value bound to `k`, if present. -/
def dictGet {α : Type} (s : CacheState α) (k : String) : Option α :=
  List.lookup k s

/-- Dict assignment `d[k] = v`: overwrite in place when the key is present,
append otherwise. -/
def dictSet {α : Type} (s : CacheState α) (k : String) (v : α) :
    CacheState α :=
  if s.any (fun p => p.1 = k) then
    s.map (fun p => if p.1 = k then (k, v) else p)
  else s ++ [(k, v)]

/-- Dict deletion `del d[k]`. -/
def dictDelete {α : Type} (s : CacheState α) (k : String) : CacheState α :=
  s.filter (fun p => decide (p.1 ≠ k))

/-! ### Shell-glob matching (`fnmatch.fnmatch`), used by `clear(pattern)`.

The Python standard library's matcher (POSIX case: no case folding):
`*` matches any sequence, `?` any single character, `[...]` a character
class with ranges and `!` negation; a `[` with no closing `]` is a literal.
The three `length` lemmas below only serve the termination argument of
`globMatchL` and therefore precede it. -/

/-- Scan for the closing `]` of a character class, accumulating the class
contents; `none` when the class is unterminated. -/
def findClose : List Char → List Char → Option (List Char × List Char)
  | _, [] => none
  | acc, c :: rest =>
    if c = ']' then some (acc.reverse, rest) else findClose (c :: acc) rest

lemma findClose_length (l : List Char) :
    ∀ (acc cls rest : List Char),
      findClose acc l = some (cls, rest) → rest.length < l.length := by
  induction l with
  | nil => intro acc cls rest h; simp [findClose] at h
  | cons c t ih =>
    intro acc cls rest h
    unfold findClose at h
    by_cases hc : c = ']'
    · rw [if_pos hc] at h
      cases h
      simp
    · rw [if_neg hc] at h
      have := ih (c :: acc) cls rest h
      simp
      omega

/-- Class contents after the optional leading `!`: a `]` in first position
is a literal member (fnmatch scans for the closing bracket from one past
it). -/
def parseClassBody (ps : List Char) : Option (List Char × List Char) :=
  match ps with
  | ']' :: t => findClose [']'] t
  | _ => findClose [] ps

lemma parseClassBody_length {ps cls rest : List Char}
    (h : parseClassBody ps = some (cls, rest)) : rest.length ≤ ps.length := by
  unfold parseClassBody at h
  split at h
  · have := findClose_length _ _ _ _ h
    simp_all
    omega
  · have := findClose_length _ _ _ _ h
    omega

/-- Parse a character class at the position just after `[`: negation flag,
class contents, and the pattern after the closing `]`. -/
def parseClass (ps : List Char) : Option (Bool × List Char × List Char) :=
  match ps with
  | '!' :: t =>
    match parseClassBody t with
    | some (cls, rest) => some (true, cls, rest)
    | none => none
  | _ =>
    match parseClassBody ps with
    | some (cls, rest) => some (false, cls, rest)
    | none => none

lemma parseClass_length {ps : List Char} {neg : Bool} {cls rest : List Char}
    (h : parseClass ps = some (neg, cls, rest)) : rest.length ≤ ps.length := by
  unfold parseClass at h
  split at h
  next t =>
    cases hb : parseClassBody t with
    | none => rw [hb] at h; exact absurd h (by simp)
    | some cr =>
      obtain ⟨c1, c2⟩ := cr
      rw [hb] at h
      simp only [Option.some.injEq, Prod.mk.injEq] at h
      obtain ⟨-, -, hr⟩ := h
      have := parseClassBody_length hb
      subst hr
      simp
      omega
  next =>
    cases hb : parseClassBody ps with
    | none => rw [hb] at h; exact absurd h (by simp)
    | some cr =>
      obtain ⟨c1, c2⟩ := cr
      rw [hb] at h
      simp only [Option.some.injEq, Prod.mk.injEq] at h
      obtain ⟨-, -, hr⟩ := h
      have := parseClassBody_length hb
      subst hr
      omega

/-- Membership of a character in class contents, with `a-b` ranges; a
trailing `-` is a literal. -/
def matchClass (c : Char) : List Char → Bool
  | a :: '-' :: b :: rest =>
    (decide (a ≤ c) && decide (c ≤ b)) || matchClass c rest
  | a :: rest => (a == c) || matchClass c rest
  | [] => false

/-- The glob matcher on character lists: pattern against subject. -/
def globMatchL : List Char → List Char → Bool
  | [], [] => true
  | [], _ :: _ => false
  | '*' :: ps, [] => globMatchL ps []
  | '*' :: ps, c :: cs => globMatchL ps (c :: cs) || globMatchL ('*' :: ps) cs
  | '?' :: _, [] => false
  | '?' :: ps, _ :: cs => globMatchL ps cs
  | '[' :: ps, s =>
    match hp : parseClass ps with
    | some (neg, cls, ps') =>
      match s with
      | [] => false
      | c :: cs => (matchClass c cls != neg) && globMatchL ps' cs
    | none =>
      match s with
      | [] => false
      | c :: cs => (c == '[') && globMatchL ps cs
  | _ :: _, [] => false
  | p :: ps, c :: cs => (p == c) && globMatchL ps cs
termination_by ps s => ps.length + s.length
decreasing_by
  all_goals simp_wf
  all_goals try omega
  · have := parseClass_length hp
    omega

/-- `fnmatch.fnmatch(nm, pat)` on the POSIX path (no case folding). -/
def globMatch (pat nm : String) : Bool := globMatchL pat.toList nm.toList

/-- The `CacheManager` namespace prefix (constructor default
`"stock-scanner"`, used by the module-level singleton). -/
def cacheNamespace : String := "stock-scanner"

/-- `CacheManager._make_key`: `f"{self.namespace}:{key}"`. -/
def makeKey (key : String) : String := cacheNamespace ++ ":" ++ key

namespace CacheManager

/-- `CacheManager.get`, fallback branch: the stored value when the
namespaced key is present, else `None`. -/
def get {α : Type} (s : CacheState α) (key : String) : Option α :=
  dictGet s (makeKey key)

/-- `CacheManager.set`, fallback branch: store the value under the
namespaced key and return `True`.  The `ttl_hours` argument is accepted but
not consulted by this branch — the fallback dict records no expiry. -/
def set {α : Type} (s : CacheState α) (key : String) (v : α)
    (ttlHours : ℚ) : Bool × CacheState α :=
  (true, dictSet s (makeKey key) v)

/-- `CacheManager.delete`, fallback branch: remove the namespaced key when
present, do nothing when absent, and return `True` either way. -/
def delete {α : Type} (s : CacheState α) (key : String) :
    Bool × CacheState α :=
  (true,
    if (dictGet s (makeKey key)).isSome then dictDelete s (makeKey key)
    else s)

/-- `CacheManager.clear`, fallback branch: with a pattern, delete every key
matching the namespaced glob pattern; with `None`, empty the dict.  Returns
`True`. -/
def clear {α : Type} (s : CacheState α) (pattern : Option String) :
    Bool × CacheState α :=
  (true,
    match pattern with
    | some p => s.filter (fun kv => !globMatch (makeKey p) kv.1)
    | none => [])

end CacheManager

/-! ## Signal deduplication (src/services/signal_deduplicator.py) -/

/-- The dict `{"hash": ..., "processed_time": ...}` stored per dedup key. -/
structure DupRecord where
  hash : String
  processedTime : String
deriving DecidableEq, Repr

/-- Hex digit for a value below 16. -/
def hexDigitChar (n : ℕ) : Char :=
  if n < 10 then Char.ofNat (48 + n) else Char.ofNat (87 + n)

/-- Fixed-width big-endian hex rendering. -/
def hexChars : ℕ → ℕ → List Char
  | 0, _ => []
  | w + 1, n => hexChars w (n / 16) ++ [hexDigitChar (n % 16)]

/-- Modelled from the spec: `hashlib.md5(key_str.encode()).hexdigest()`
(Python standard library, not part of this repository).  §4.5 requires only
a deterministic content hash over the key string, and the deduplicator
relies on the hexdigest being a non-empty string of 32 hex characters;
modelled as a 128-bit polynomial rolling hash of the characters rendered as
exactly 32 hex digits. -/
def md5hex (s : String) : String :=
  String.mk (hexChars 32
    (s.toList.foldl (fun a c => (a * 131 + c.toNat) % 2 ^ 128) (2 ^ 127 + 1)))

/-- The dedup cache key `f"dup:{signal.symbol}:{signal.detected_date}"`. -/
def dupKey (symbol detectedDate : String) : String :=
  "dup:" ++ symbol ++ ":" ++ detectedDate

/-- `SignalDeduplicator.is_duplicate`:
`bool(existing and existing.get("hash"))` — true iff a record is stored for
the `(symbol, detected_date)` key and its hash string is non-empty. -/
def isDuplicate (s : CacheState DupRecord) (symbol detectedDate : String) :
    Bool :=
  match CacheManager.get s (dupKey symbol detectedDate) with
  | none => false
  | some r => !(r.hash == "")

/-- `SignalDeduplicator.mark_processed`: hash
`f"{symbol}_{detected_date}_{entry_price}"`, store the record under the
dedup key with a 24-hour TTL, return `True`.  `entryRepr` and `tsIso` are
the rendered entry price and ISO-8601 timestamp strings. -/
def markProcessed (s : CacheState DupRecord)
    (symbol detectedDate entryRepr tsIso : String) :
    Bool × CacheState DupRecord :=
  let signalHash := md5hex (symbol ++ "_" ++ detectedDate ++ "_" ++ entryRepr)
  let s2 := (CacheManager.set s (dupKey symbol detectedDate)
    ⟨signalHash, tsIso⟩ 24).2
  (true, s2)

end DhanTrader

namespace DhanTrader

/-! ## Theorems -/

lemma fget_setFlag (f : Features) (k k' : String) :
    fget (setFlag f k) k' = if k' = k then true else fget f k' := by
  unfold fget setFlag
  by_cases h : k' = k
  · subst h
    simp [List.lookup]
  · have hb : (k' == k) = false := beq_eq_false_iff_ne.mpr h
    simp [List.lookup, hb, h]

lemma computeScore_mono (f g : Features)
    (h : ∀ k, fget f k = true → fget g k = true) :
    computeScore f ≤ computeScore g := by
  have step : ∀ (k : String) (w : ℤ), 0 ≤ w →
      (if fget f k then w else 0) ≤ (if fget g k then w else 0) := by
    intro k w hw
    by_cases hk : fget f k = true
    · rw [if_pos hk, if_pos (h k hk)]
    · rw [if_neg hk]
      by_cases hg : fget g k = true
      · rw [if_pos hg]; exact hw
      · rw [if_neg hg]
  unfold computeScore
  have h1 := step "obv_bullish" 3 (by norm_num)
  have h2 := step "rsi_bullish" 2 (by norm_num)
  have h3 := step "mfi_bullish" 2 (by norm_num)
  have h4 := step "market_structure" 1 (by norm_num)
  have h5 := step "candlestick_bullish" 1 (by norm_num)
  have h6 := step "not_falling" 2 (by norm_num)
  have h7 := step "htf_uptrend" 1 (by norm_num)
  linarith

/-- **C1.** `compute_score` is a pure function of the feature set whose value
lies in `[0, 12]`, equals the spec's weighted sum over the keys present and
true (missing keys contributing 0), and is unchanged by the `ema_trend`
flag. -/
theorem computeScore_bounds_and_weights (f : Features) :
    (0 ≤ computeScore f ∧ computeScore f ≤ 12)
    ∧ computeScore f = computeScoreSpec f
    ∧ (∀ b : Bool, computeScore (("ema_trend", b) :: f) = computeScore f) := by
  refine ⟨?_, ?_, ?_⟩
  · unfold computeScore
    split_ifs <;> norm_num
  · unfold computeScore computeScoreSpec scoreWeights
    simp
    ring
  · intro b
    unfold computeScore
    have hk : ∀ k : String, k ∈ featureNames.dropLast →
        fget (("ema_trend", b) :: f) k = fget f k := by
      intro k hkmem
      have hne : (k == "ema_trend") = false := by
        fin_cases hkmem <;> decide
      simp [fget, List.lookup, hne]
    rw [hk "obv_bullish" (by decide), hk "rsi_bullish" (by decide),
      hk "mfi_bullish" (by decide), hk "market_structure" (by decide),
      hk "candlestick_bullish" (by decide), hk "not_falling" (by decide),
      hk "htf_uptrend" (by decide)]

/-- **C2.** `detect_long_signal(f)` is true exactly when the score is at
least 6 and both the `not_falling` and `ema_trend` flags are true. -/
theorem detectLongSignal_iff (f : Features) :
    detectLongSignal f = true ↔
      6 ≤ computeScore f ∧ fget f "not_falling" = true
        ∧ fget f "ema_trend" = true := by
  unfold detectLongSignal
  simp [and_assoc]

/-- **C9.** `compute_score` is monotone in the feature flags: setting any of
the eight named keys to true never decreases the score. -/
theorem computeScore_mono_setFlag (f : Features) (k : String)
    (_hk : k ∈ featureNames) :
    computeScore f ≤ computeScore (setFlag f k) := by
  refine computeScore_mono f (setFlag f k) ?_
  intro k' h
  rw [fget_setFlag]
  by_cases hkk : k' = k
  · rw [if_pos hkk]
  · rw [if_neg hkk]; exact h

/-- Witness for C9 at a concrete feature set and key. -/
theorem computeScore_mono_setFlag_witness :
    computeScore [("rsi_bullish", true)]
      ≤ computeScore (setFlag [("rsi_bullish", true)] "obv_bullish") :=
  computeScore_mono_setFlag [("rsi_bullish", true)] "obv_bullish" (by decide)

end DhanTrader

namespace DhanTrader

/-! ### Length preservation of the indicator engine -/

lemma emaFrom_length (k : ℚ) (prev : ℚ) (l : List ℚ) :
    (emaFrom k prev l).length = l.length := by
  induction l generalizing prev with
  | nil => rfl
  | cons p rest ih => simp [emaFrom, ih]

lemma ema_length (prices : List ℚ) (period : ℕ) (h : 0 < period) :
    (ema prices period).length = prices.length := by
  unfold ema
  split
  · simp
  · simp [emaFrom_length]
    omega

lemma sma_length (prices : List ℚ) (period : ℕ) :
    (sma prices period).length = prices.length := by
  simp [sma]

lemma rsiRec_length (p : ℚ) (g l : ℚ) (ds : List ℚ) :
    (rsiRec p g l ds).length = ds.length := by
  induction ds generalizing g l with
  | nil => rfl
  | cons d rest ih => simp [rsiRec, ih]

lemma deltas_length (prices : List ℚ) :
    (deltas prices).length = prices.length - 1 := by
  simp [deltas]

lemma rsi_length (prices : List ℚ) (period : ℕ) :
    (rsi prices period).length = prices.length := by
  simp only [rsi]
  split
  · simp
  · simp [rsiRec_length, deltas_length]
    omega

lemma mfi_length (highs lows closes volumes : List ℚ) (period : ℕ) :
    (mfi highs lows closes volumes period).length = closes.length := by
  simp only [mfi]
  split
  · simp
  · simp
    omega

lemma obvRec_length (cur prev : ℚ) (l : List (ℚ × ℚ)) :
    (obvRec cur prev l).length = l.length := by
  induction l generalizing cur prev with
  | nil => rfl
  | cons p rest ih =>
    obtain ⟨c, v⟩ := p
    simp [obvRec, ih]

lemma obv_length (closes volumes : List ℚ)
    (hv : volumes.length = closes.length) :
    (obv closes volumes).length = closes.length := by
  unfold obv
  cases closes with
  | nil => rfl
  | cons c0 rest =>
    simp [obvRec_length]
    simp at hv
    omega

lemma zip4_length (a b c d : List ℚ) :
    (zip4 a b c d).length =
      min (min (min a.length b.length) c.length) d.length := by
  induction a generalizing b c d with
  | nil => cases b <;> cases c <;> cases d <;> simp [zip4]
  | cons x xs ih =>
    cases b <;> cases c <;> cases d <;> simp [zip4, ih] <;> omega

lemma vwapRec_length (ctp cv : ℚ) (l : List (ℚ × ℚ × ℚ × ℚ)) :
    (vwapRec ctp cv l).length = l.length := by
  induction l generalizing ctp cv with
  | nil => rfl
  | cons p rest ih =>
    obtain ⟨h, l', c, v⟩ := p
    simp [vwapRec, ih]

lemma vwap_length (highs lows closes volumes : List ℚ)
    (hh : highs.length = closes.length) (hl : lows.length = closes.length)
    (hv : volumes.length = closes.length) :
    (vwap highs lows closes volumes).length = closes.length := by
  unfold vwap
  rw [vwapRec_length, zip4_length]
  omega

lemma adRec_length (cum : ℚ) (l : List (ℚ × ℚ × ℚ × ℚ)) :
    (adRec cum l).length = l.length := by
  induction l generalizing cum with
  | nil => rfl
  | cons p rest ih =>
    obtain ⟨h, l', c, v⟩ := p
    simp [adRec, ih]

lemma ad_line_length (highs lows closes volumes : List ℚ)
    (hh : highs.length = closes.length) (hl : lows.length = closes.length)
    (hv : volumes.length = closes.length) :
    (ad_line highs lows closes volumes).length = closes.length := by
  unfold ad_line
  rw [adRec_length, zip4_length]
  omega

lemma trueRanges_length (highs lows closes : List ℚ) :
    (trueRanges highs lows closes).length = closes.length := by
  simp [trueRanges]

lemma wilderRec_length (p : ℚ) (prev : ℚ) (l : List ℚ) :
    (wilderRec p prev l).length = l.length := by
  induction l generalizing prev with
  | nil => rfl
  | cons t rest ih => simp [wilderRec, ih]

lemma atr_length (highs lows closes : List ℚ) (period : ℕ)
    (h : 0 < period) :
    (atr highs lows closes period).length = closes.length := by
  simp only [atr]
  split
  · simp
  · split
    · simp
    · simp [wilderRec_length, trueRanges_length]
      rename_i hn hp
      rw [trueRanges_length] at hp
      omega

lemma scatterSignal_length (l es : List (Option ℚ)) :
    (scatterSignal l es).length = l.length := by
  induction l generalizing es with
  | nil => rfl
  | cons a rest ih =>
    cases a <;> cases es <;> simp [scatterSignal, ih]

lemma macd_length (prices : List ℚ) (fast slow sig : ℕ)
    (hf : 0 < fast) (hs : 0 < slow) :
    (macd prices fast slow sig).macdLine.length = prices.length
    ∧ (macd prices fast slow sig).signalLine.length = prices.length
    ∧ (macd prices fast slow sig).histogram.length = prices.length := by
  have hm : (List.zipWith optSub (ema prices fast)
      (ema prices slow)).length = prices.length := by
    rw [List.length_zipWith, ema_length _ _ hf, ema_length _ _ hs, min_self]
  simp only [macd]
  refine ⟨hm, ?_, ?_⟩
  · rw [scatterSignal_length, hm]
  · rw [List.length_zipWith, scatterSignal_length, hm, min_self]

lemma bollinger_length (sqrtFn : ℚ → ℚ) (prices : List ℚ) (period : ℕ)
    (stdDev : ℚ) :
    (bollinger_bands sqrtFn prices period stdDev).upper.length = prices.length
    ∧ (bollinger_bands sqrtFn prices period stdDev).middle.length
        = prices.length
    ∧ (bollinger_bands sqrtFn prices period stdDev).lower.length
        = prices.length := by
  simp only [bollinger_bands]
  refine ⟨?_, ?_, ?_⟩ <;> simp [sma_length]

end DhanTrader

namespace DhanTrader

/-- **C3.** Every series-producing `IndicatorCalculator` operation returns a
series of the same length as its input: `sma`, `ema`, `rsi`, `mfi`, `obv`,
`vwap`, `ad_line`, `atr`, the three MACD series, and the three Bollinger
bands, for equal-length parallel series and positive periods — including
the short-input all-undefined cases and the scattered MACD signal line. -/
theorem indicator_length_preservation
    (prices highs lows closes volumes : List ℚ)
    (period fast slow sig : ℕ) (sqrtFn : ℚ → ℚ) (stdDev : ℚ)
    (hp : 0 < period) (hf : 0 < fast) (hs : 0 < slow) (_hg : 0 < sig)
    (hh : highs.length = closes.length) (hl : lows.length = closes.length)
    (hv : volumes.length = closes.length) :
    (sma prices period).length = prices.length
    ∧ (ema prices period).length = prices.length
    ∧ (rsi prices period).length = prices.length
    ∧ (mfi highs lows closes volumes period).length = closes.length
    ∧ (obv closes volumes).length = closes.length
    ∧ (vwap highs lows closes volumes).length = closes.length
    ∧ (ad_line highs lows closes volumes).length = closes.length
    ∧ (atr highs lows closes period).length = closes.length
    ∧ (macd prices fast slow sig).macdLine.length = prices.length
    ∧ (macd prices fast slow sig).signalLine.length = prices.length
    ∧ (macd prices fast slow sig).histogram.length = prices.length
    ∧ (bollinger_bands sqrtFn prices period stdDev).upper.length
        = prices.length
    ∧ (bollinger_bands sqrtFn prices period stdDev).middle.length
        = prices.length
    ∧ (bollinger_bands sqrtFn prices period stdDev).lower.length
        = prices.length := by
  obtain ⟨hm1, hm2, hm3⟩ := macd_length prices fast slow sig hf hs
  obtain ⟨hb1, hb2, hb3⟩ := bollinger_length sqrtFn prices period stdDev
  exact ⟨sma_length prices period, ema_length prices period hp,
    rsi_length prices period, mfi_length highs lows closes volumes period,
    obv_length closes volumes hv, vwap_length highs lows closes volumes hh hl hv,
    ad_line_length highs lows closes volumes hh hl hv,
    atr_length highs lows closes period hp, hm1, hm2, hm3, hb1, hb2, hb3⟩

/-- Witness for C3 at concrete series and periods. -/
theorem indicator_length_preservation_witness :
    (sma [3, 1, 4] 2).length = 3
    ∧ (ema [3, 1, 4] 2).length = 3
    ∧ (rsi [3, 1, 4] 2).length = 3
    ∧ (mfi [5, 6] [1, 2] [4, 5] [10, 20] 2).length = 2
    ∧ (obv [4, 5] [10, 20]).length = 2
    ∧ (vwap [5, 6] [1, 2] [4, 5] [10, 20]).length = 2
    ∧ (ad_line [5, 6] [1, 2] [4, 5] [10, 20]).length = 2
    ∧ (atr [5, 6] [1, 2] [4, 5] 2).length = 2
    ∧ (macd [3, 1, 4] 1 2 1).macdLine.length = 3
    ∧ (macd [3, 1, 4] 1 2 1).signalLine.length = 3
    ∧ (macd [3, 1, 4] 1 2 1).histogram.length = 3
    ∧ (bollinger_bands id [3, 1, 4] 2 2).upper.length = 3
    ∧ (bollinger_bands id [3, 1, 4] 2 2).middle.length = 3
    ∧ (bollinger_bands id [3, 1, 4] 2 2).lower.length = 3 := by
  have h := indicator_length_preservation [3, 1, 4] [5, 6] [1, 2] [4, 5]
    [10, 20] 2 1 2 1 id 2 (by decide) (by decide) (by decide) (by decide)
    (by decide) (by decide) (by decide)
  simpa using h

end DhanTrader

namespace DhanTrader

/-! ### Range of RSI and MFI values -/

lemma rsiVal_range {g l : ℚ} (hg : 0 ≤ g) (hl : 0 ≤ l) :
    0 ≤ rsiVal g l ∧ rsiVal g l ≤ 100 := by
  unfold rsiVal
  split
  · norm_num
  · rename_i hne
    have hlpos : 0 < l := lt_of_le_of_ne hl (Ne.symm hne)
    have hrs : 0 ≤ g / l := div_nonneg hg hl
    have hpos : (0 : ℚ) < 1 + g / l := by linarith
    have hle : 100 / (1 + g / l) ≤ 100 := by
      apply div_le_self (by norm_num)
      linarith
    have hge : 0 ≤ 100 / (1 + g / l) := div_nonneg (by norm_num) (le_of_lt hpos)
    constructor <;> linarith

lemma rsiRec_range {p : ℚ} (hp : 1 ≤ p) :
    ∀ (ds : List ℚ) (g l : ℚ), 0 ≤ g → 0 ≤ l →
      ∀ v ∈ rsiRec p g l ds, 0 ≤ v ∧ v ≤ 100 := by
  intro ds
  induction ds with
  | nil => intro g l _ _ v hv; simp [rsiRec] at hv
  | cons d rest ih =>
    intro g l hg hl v hv
    have hppos : (0 : ℚ) < p := by linarith
    have hg2 : 0 ≤ (g * (p - 1) + max d 0) / p :=
      div_nonneg
        (add_nonneg (mul_nonneg hg (by linarith)) (le_max_right d 0))
        (le_of_lt hppos)
    have hl2 : 0 ≤ (l * (p - 1) + -(min d 0)) / p :=
      div_nonneg
        (add_nonneg (mul_nonneg hl (by linarith))
          (neg_nonneg.mpr (min_le_right d 0)))
        (le_of_lt hppos)
    simp only [rsiRec, List.mem_cons] at hv
    rcases hv with rfl | hv
    · exact rsiVal_range hg2 hl2
    · exact ih _ _ hg2 hl2 v hv

lemma sum_nonpos_of_nonpos {l : List ℚ} (h : ∀ x ∈ l, x ≤ 0) :
    l.sum ≤ 0 := by
  induction l with
  | nil => simp
  | cons a rest ih =>
    simp only [List.sum_cons]
    have ha := h a (by simp)
    have hr := ih (fun x hx => h x (by simp [hx]))
    linarith

lemma getD_nonneg {l : List ℚ} (h : ∀ x ∈ l, 0 ≤ x) (i : ℕ) :
    0 ≤ l.getD i 0 := by
  by_cases hi : i < l.length
  · rw [List.getD_eq_getElem l 0 hi]
    exact h _ (List.getElem_mem hi)
  · rw [List.getD_eq_default l 0 (by omega)]

lemma pyGet_nonneg {l : List ℚ} (h : ∀ x ∈ l, 0 ≤ x) (i : ℤ) :
    0 ≤ pyGet l i := by
  unfold pyGet
  split <;> exact getD_nonneg h _

lemma zip3With_mem {f : ℚ → ℚ → ℚ → ℚ} :
    ∀ {as bs cs : List ℚ} {x : ℚ}, x ∈ zip3With f as bs cs →
      ∃ a b c, a ∈ as ∧ b ∈ bs ∧ c ∈ cs ∧ x = f a b c := by
  intro as
  induction as with
  | nil => intro bs cs x hx; simp [zip3With] at hx
  | cons a as ih =>
    intro bs cs x hx
    cases bs with
    | nil => simp [zip3With] at hx
    | cons b bs =>
      cases cs with
      | nil => simp [zip3With] at hx
      | cons c cs =>
        simp only [zip3With, List.mem_cons] at hx
        rcases hx with rfl | hx
        · exact ⟨a, b, c, by simp, by simp, by simp, rfl⟩
        · obtain ⟨a', b', c', ha, hb, hc, hx⟩ := ih hx
          exact ⟨a', b', c', by simp [ha], by simp [hb], by simp [hc], hx⟩

lemma typicalPrices_nonneg {highs lows closes : List ℚ}
    (hh : ∀ x ∈ highs, 0 ≤ x) (hl : ∀ x ∈ lows, 0 ≤ x)
    (hc : ∀ x ∈ closes, 0 ≤ x) :
    ∀ x ∈ typicalPrices highs lows closes, 0 ≤ x := by
  intro x hx
  obtain ⟨a, b, c, ha, hb, hc', rfl⟩ := zip3With_mem hx
  have := hh a ha
  have := hl b hb
  have := hc c hc'
  positivity

end DhanTrader

namespace DhanTrader

lemma mfi_body_range {pos neg : ℚ} (hpos : 0 ≤ pos) (hneg : 0 ≤ neg) {v : ℚ}
    (h : (if neg = 0 then some (100 : ℚ)
          else some (100 - 100 / (1 + pos / neg))) = some v) :
    0 ≤ v ∧ v ≤ 100 := by
  split at h
  · cases h
    norm_num
  · cases h
    rename_i hne
    have := rsiVal_range hpos hneg
    rwa [rsiVal, if_neg hne] at this

/-- **C4 (amended).** Every defined RSI value lies in `[0, 100]` for any
price series; every defined MFI value lies in `[0, 100]` provided the highs,
lows, closes and volumes are all non-negative (for negative prices the MFI
can leave the interval — see the counterexample). -/
theorem rsi_mfi_range
    (prices highs lows closes volumes : List ℚ) (period : ℕ)
    (hp : 0 < period)
    (hh : ∀ x ∈ highs, 0 ≤ x) (hl : ∀ x ∈ lows, 0 ≤ x)
    (hc : ∀ x ∈ closes, 0 ≤ x) (hv : ∀ x ∈ volumes, 0 ≤ x) :
    (∀ v : ℚ, some v ∈ rsi prices period → 0 ≤ v ∧ v ≤ 100)
    ∧ (∀ v : ℚ, some v ∈ mfi highs lows closes volumes period →
        0 ≤ v ∧ v ≤ 100) := by
  have hp1 : (1 : ℚ) ≤ (period : ℚ) := by exact_mod_cast hp
  constructor
  · intro v hv
    simp only [rsi] at hv
    split at hv
    · exact absurd (List.eq_of_mem_replicate hv) (by simp)
    · rw [List.mem_append] at hv
      rcases hv with hv | hv
      · exact absurd (List.eq_of_mem_replicate hv) (by simp)
      · rw [List.mem_map] at hv
        obtain ⟨w, hw, hws⟩ := hv
        obtain rfl : w = v := Option.some.inj hws
        have hg0 : 0 ≤ (((deltas prices).take period).filter
            (fun x => decide (0 < x))).sum / (period : ℚ) := by
          apply div_nonneg _ (by linarith)
          apply List.sum_nonneg
          intro x hx
          exact le_of_lt (of_decide_eq_true (List.mem_filter.1 hx).2)
        have hl0 : 0 ≤ -(((deltas prices).take period).filter
            (fun x => decide (x < 0))).sum / (period : ℚ) := by
          apply div_nonneg _ (by linarith)
          apply neg_nonneg.mpr
          apply sum_nonpos_of_nonpos
          intro x hx
          exact le_of_lt (of_decide_eq_true (List.mem_filter.1 hx).2)
        rcases List.mem_cons.1 hw with rfl | hw
        · exact rsiVal_range hg0 hl0
        · exact rsiRec_range hp1 _ _ _ hg0 hl0 w hw
  · intro v hmem
    have hT : ∀ x ∈ typicalPrices highs lows closes, 0 ≤ x :=
      typicalPrices_nonneg hh hl hc
    have hF : ∀ x ∈ ((typicalPrices highs lows closes).zip volumes).map
        (fun tv => tv.1 * tv.2), 0 ≤ x := by
      intro x hx
      obtain ⟨⟨a, b⟩, hab, rfl⟩ := List.mem_map.1 hx
      obtain ⟨ha, hb⟩ := List.of_mem_zip hab
      exact mul_nonneg (hT a ha) (hv b hb)
    simp only [mfi] at hmem
    split at hmem
    · exact absurd (List.eq_of_mem_replicate hmem) (by simp)
    · rw [List.mem_append] at hmem
      rcases hmem with hmem | hmem
      · exact absurd (List.eq_of_mem_replicate hmem) (by simp)
      · rw [List.mem_map] at hmem
        obtain ⟨m, -, hbody⟩ := hmem
        refine mfi_body_range ?_ ?_ hbody <;>
        · apply List.sum_nonneg
          intro x hx
          obtain ⟨t, -, rfl⟩ := List.mem_map.1 hx
          split
          · exact getD_nonneg hF _
          · exact le_refl 0

/-- Witness for C4 at concrete inputs: RSI value `100` of
`rsi [1,2,3] 1` and MFI value `0` of `mfi [2,4] [2,4] [2,4] [1,1] 1`. -/
theorem rsi_mfi_range_witness :
    (0 ≤ (100 : ℚ) ∧ (100 : ℚ) ≤ 100) ∧ (0 ≤ (0 : ℚ) ∧ (0 : ℚ) ≤ 100) := by
  have h := rsi_mfi_range [1, 2, 3] [2, 4] [2, 4] [2, 4] [1, 1] 1
    (by decide) (by norm_num) (by norm_num) (by norm_num) (by norm_num)
  refine ⟨h.1 100 ?_, h.2 0 ?_⟩
  · norm_num [rsi, deltas, rsiVal, rsiRec, List.filter, List.replicate]
  · norm_num [mfi, typicalPrices, zip3With, pyGet, List.range_succ,
      List.replicate, List.getD, Int.toNat]

/-- **C4 counterexample.** With non-negative volumes but negative prices the
MFI leaves `[0, 100]`: on typical prices `[1, -20, -10, 100]` with volumes
`[1, 0, 1, 5]` and period 3, the window mixes a positive "negative flow"
with a negative "positive flow" (the first window position comparing
against the last element through Python's `-1` indexing), giving the
defined value `1000/9 > 100`. -/
theorem mfi_exceeds_100 :
    some ((1000 : ℚ) / 9)
      ∈ mfi [1, -20, -10, 100] [1, -20, -10, 100] [1, -20, -10, 100]
          [1, 0, 1, 5] 3
    ∧ ¬((1000 : ℚ) / 9 ≤ 100) := by
  constructor
  · norm_num [mfi, typicalPrices, zip3With, pyGet, List.range_succ,
      List.replicate, List.getD, Int.toNat]
  · norm_num

end DhanTrader

namespace DhanTrader

/-! ### Position of the first defined RSI value -/

lemma getD_replicate_append {X : List (Option ℚ)} {k i : ℕ} (h : i < k) :
    (List.replicate k (none : Option ℚ) ++ X).getD i none = none := by
  rw [List.getD_eq_getElem?_getD, List.getElem?_append,
    if_pos (by simpa using h), List.getElem?_replicate, if_pos h]
  rfl

lemma getD_replicate_append_map {L : List ℚ} {k i : ℕ} (hk : k ≤ i)
    (h2 : i < k + L.length) :
    (List.replicate k (none : Option ℚ) ++ L.map some).getD i none ≠ none := by
  rw [List.getD_eq_getElem?_getD, List.getElem?_append,
    if_neg (by simpa using not_lt.mpr hk), List.getElem?_map,
    List.getElem?_eq_getElem (by simp; omega)]
  simp

/-- **C5 (amended).** When the series is long enough for at least one
defined RSI value (`period + 1 ≤ n`), the entries at indices `0 .. period-1`
are exactly the undefined ones: the first defined value sits at index
`period`, not `period - 1` (see the counterexample for the original
claim). -/
theorem rsi_undefined_prefix (prices : List ℚ) (period : ℕ)
    (_hp : 0 < period) (hlen : period + 1 ≤ prices.length) :
    ∀ i < prices.length,
      ((rsi prices period).getD i none = none ↔ i < period) := by
  intro i hi
  simp only [rsi]
  rw [if_neg (by omega)]
  constructor
  · intro hnone
    by_contra hip
    exact getD_replicate_append_map (by omega)
      (by simp [rsiRec_length, deltas_length]; omega) hnone
  · intro hip
    exact getD_replicate_append hip

/-- Witness for C5: at `rsi([1,2,3], 2)`, index 2 is defined. -/
theorem rsi_undefined_prefix_witness :
    ((rsi [1, 2, 3] 2).getD 2 none = none ↔ 2 < 2) :=
  rsi_undefined_prefix [1, 2, 3] 2 (by decide) (by decide) 2 (by decide)

/-- **C5 counterexample.** For `rsi([1,2,3], 2)` the entry at index
`period - 1 = 1` is still undefined and the first defined value (100, all
deltas positive) sits at index `period = 2`: the code prepends
`[None] * period`, so the first defined index is `period`, not
`period - 1`. -/
theorem rsi_first_defined_not_at_period_sub_one :
    (rsi [1, 2, 3] 2).getD 1 none = none
    ∧ (rsi [1, 2, 3] 2).getD 2 none = some 100 := by
  have hval : rsi [1, 2, 3] 2 = [none, none, some 100] := by
    norm_num [rsi, deltas, rsiVal, rsiRec, List.filter, List.replicate]
  rw [hval]
  exact ⟨rfl, rfl⟩

end DhanTrader


namespace DhanTrader

/-! ### Fallback cache store and deduplication -/

lemma lookup_map_overwrite {α : Type} (k : String) (v : α) :
    ∀ s : CacheState α, s.any (fun p => decide (p.1 = k)) = true →
      List.lookup k (s.map fun p => if p.1 = k then (k, v) else p)
        = some v := by
  intro s
  induction s with
  | nil => simp
  | cons p t ih =>
    intro hany
    simp only [List.map_cons]
    by_cases hp : p.1 = k
    · rw [if_pos hp]
      simp [List.lookup]
    · rw [if_neg hp]
      have ht : t.any (fun p => decide (p.1 = k)) = true := by
        simpa [hp] using hany
      have hb : (k == p.1) = false := beq_eq_false_iff_ne.mpr (Ne.symm hp)
      simp [List.lookup, hb, ih ht]

lemma lookup_append_absent {α : Type} (k : String) (v : α) :
    ∀ s : CacheState α, s.any (fun p => decide (p.1 = k)) = false →
      List.lookup k (s ++ [(k, v)]) = some v := by
  intro s
  induction s with
  | nil => simp [List.lookup]
  | cons p t ih =>
    intro hany
    rw [List.any_cons, Bool.or_eq_false_iff] at hany
    obtain ⟨hp0, ht⟩ := hany
    have hb : (k == p.1) = false :=
      beq_eq_false_iff_ne.mpr (Ne.symm (of_decide_eq_false hp0))
    simp [List.lookup, hb, ih ht]

lemma dictGet_dictSet_self {α : Type} (s : CacheState α) (k : String)
    (v : α) : dictGet (dictSet s k v) k = some v := by
  unfold dictGet dictSet
  split
  · rename_i hany
    exact lookup_map_overwrite k v s hany
  · rename_i hany
    exact lookup_append_absent k v s (Bool.eq_false_iff.mpr hany)

lemma hexChars_length : ∀ (w n : ℕ), (hexChars w n).length = w := by
  intro w
  induction w with
  | zero => intro n; rfl
  | succ w ih => intro n; simp [hexChars, ih]

lemma md5hex_ne_empty (s : String) : md5hex s ≠ "" := by
  unfold md5hex
  intro h
  have hd : (hexChars 32
      (s.toList.foldl (fun a c => (a * 131 + c.toNat) % 2 ^ 128)
        (2 ^ 127 + 1))) = [] := congrArg String.data h
  have := hexChars_length 32
    (s.toList.foldl (fun a c => (a * 131 + c.toNat) % 2 ^ 128) (2 ^ 127 + 1))
  rw [hd] at this
  simp at this

/-- **C6.** After `mark_processed`, `is_duplicate` for the same
`(symbol, detected_date)` is true (in the fallback store the record never
expires, so in particular within the 24-hour TTL); for a never-marked pair
the lookup is empty and `is_duplicate` is false; and `is_duplicate` is true
exactly when a stored record exists for the pair and carries a non-empty
hash. -/
theorem dedup_mark_then_check (s : CacheState DupRecord)
    (symbol detectedDate entryRepr tsIso : String) :
    isDuplicate (markProcessed s symbol detectedDate entryRepr tsIso).2
        symbol detectedDate = true
    ∧ (CacheManager.get s (dupKey symbol detectedDate) = none →
        isDuplicate s symbol detectedDate = false)
    ∧ (isDuplicate s symbol detectedDate = true ↔
        ∃ r : DupRecord,
          CacheManager.get s (dupKey symbol detectedDate) = some r
            ∧ r.hash ≠ "") := by
  refine ⟨?_, ?_, ?_⟩
  · simp only [markProcessed, isDuplicate, CacheManager.get,
      CacheManager.set]
    rw [dictGet_dictSet_self]
    simp [md5hex_ne_empty]
  · intro h
    simp [isDuplicate, h]
  · cases hr : CacheManager.get s (dupKey symbol detectedDate) with
    | none => simp [isDuplicate, hr]
    | some r => simp [isDuplicate, hr]

/-- Witness for C6 at a concrete signal and the empty store. -/
theorem dedup_mark_then_check_witness :
    isDuplicate (markProcessed ([] : CacheState DupRecord) "TCS"
        "2024-01-01" "100.5" "2024-01-01T10:00:00").2 "TCS" "2024-01-01"
      = true
    ∧ isDuplicate ([] : CacheState DupRecord) "TCS" "2024-01-01" = false := by
  have h := dedup_mark_then_check ([] : CacheState DupRecord) "TCS"
    "2024-01-01" "100.5" "2024-01-01T10:00:00"
  exact ⟨h.1, h.2.1 rfl⟩

/-- **C7 (amended).** In fallback mode `set(k, v, ttl)` followed by `get(k)`
returns exactly `v`, but the fallback map does **not** enforce TTL expiry:
the `ttl` argument is discarded, so the stored state — and hence every later
`get` — is identical for any two TTL values, and the entry never expires. -/
theorem cache_set_get_roundtrip {α : Type} (s : CacheState α) (k : String)
    (v : α) (ttl ttlOther : ℚ) (_httl : 0 < ttl) :
    CacheManager.get (CacheManager.set s k v ttl).2 k = some v
    ∧ (CacheManager.set s k v ttl).2 = (CacheManager.set s k v ttlOther).2 := by
  refine ⟨?_, rfl⟩
  simp only [CacheManager.get, CacheManager.set]
  exact dictGet_dictSet_self s (makeKey k) v

/-- Witness for C7 at a concrete key, value and TTLs. -/
theorem cache_set_get_roundtrip_witness :
    CacheManager.get
      (CacheManager.set ([] : CacheState ℤ) "price" 42 1).2 "price"
      = some 42
    ∧ (CacheManager.set ([] : CacheState ℤ) "price" 42 1).2
      = (CacheManager.set ([] : CacheState ℤ) "price" 42 2).2 :=
  cache_set_get_roundtrip ([] : CacheState ℤ) "price" 42 1 2 (by norm_num)

/-- **C7 counterexample.** The fallback branch of `set` stores the bare
value with no expiry: after `set("scan", 7, ttl_hours=1)` the state is
byte-for-byte the one produced with a TTL of 1 000 000 hours, and `get`
reads `some 7` from it — since nothing in the state or in `get` depends on
the clock, the value is still returned after the 1-hour TTL has elapsed,
refuting "after TTL expiry, get(k) returns absent" for fallback mode. -/
theorem fallback_ignores_ttl :
    CacheManager.get (CacheManager.set ([] : CacheState ℤ) "scan" 7 1).2
      "scan" = some 7
    ∧ (CacheManager.set ([] : CacheState ℤ) "scan" 7 1).2
      = (CacheManager.set ([] : CacheState ℤ) "scan" 7 1000000).2 := by
  decide

/-- **C8 (amended).** A successful `clear` returns `True` — a boolean
success flag, not the number of removed entries (the count is only logged);
with no pattern the fallback branch empties the whole dict. -/
theorem clear_returns_true {α : Type} (s : CacheState α)
    (pattern : Option String) :
    (CacheManager.clear s pattern).1 = true
    ∧ (CacheManager.clear s none).2 = ([] : CacheState α) :=
  ⟨rfl, rfl⟩

/-- **C8 counterexample.** Clearing a cache of two entries removes two
entries, clearing the empty cache removes zero, yet both calls return the
very same value `True` — so the return value of `clear` cannot be the count
of removed entries. -/
theorem clear_result_not_count :
    (CacheManager.clear [(makeKey "a", (1 : ℤ)), (makeKey "b", 2)] none).1
      = (CacheManager.clear ([] : CacheState ℤ) none).1
    ∧ [(makeKey "a", (1 : ℤ)), (makeKey "b", 2)].length
        - (CacheManager.clear [(makeKey "a", (1 : ℤ)), (makeKey "b", 2)]
            none).2.length = 2
    ∧ ([] : CacheState ℤ).length
        - (CacheManager.clear ([] : CacheState ℤ) none).2.length = 0 := by
  decide

/-- **C10.** `delete` returns `True` whether or not the key is present, and
when the key is absent in fallback mode the state is left unchanged — a
missing key is never an error. -/
theorem delete_returns_true_and_noop {α : Type} (s : CacheState α)
    (key : String) :
    (CacheManager.delete s key).1 = true
    ∧ (CacheManager.get s key = none →
        (CacheManager.delete s key).2 = s) := by
  refine ⟨rfl, ?_⟩
  intro h
  simp only [CacheManager.get] at h
  simp [CacheManager.delete, h]

/-- Witness for C10 on the empty store. -/
theorem delete_returns_true_and_noop_witness :
    (CacheManager.delete ([] : CacheState ℤ) "gone").1 = true
    ∧ (CacheManager.delete ([] : CacheState ℤ) "gone").2 = [] :=
  ⟨(delete_returns_true_and_noop ([] : CacheState ℤ) "gone").1,
    (delete_returns_true_and_noop ([] : CacheState ℤ) "gone").2 rfl⟩

end DhanTrader
